import Mathlib

/-!
Verification development for the three validation scripts of this repository
(scripts/validate_perks.py, scripts/validate_spells.py, scripts/validate_weapons.py).

Python strings are modelled as lists of characters (type Str below).  Python
string operations (strip, lower, split, join, replace, startswith, int, the two
regular expressions used by the scripts) are embedded as executable Lean
functions; functions whose recursion is not structural are written with an
explicit fuel argument equal to the length of the input so that they stay
kernel-computable.  Modelling notes:
- str.lower is modelled on ASCII letters (the only letters the scripts compare);
- int() is modelled as an optional sign followed by ASCII digits;
- the regular expression pattern of one-or-more digits followed by a marker
  letter is modelled by an explicit leftmost scan, which agrees with the regex
  engine because the marker letter is never a digit;
- float division in the similarity score is modelled by exact rational division.
-/

/-- Python strings, modelled as lists of characters. -/
abbrev Str := List Char

/-- Characters of a Lean string literal, used to write Str literals. -/
def cs (s : String) : Str := s.data

/-- The Python str whitespace class (str.split with no argument, str.strip). -/
def isPyWs (c : Char) : Bool :=
  c == ' ' || c == '\t' || c == '\n' || c == '\r' || c == '\x0b' || c == '\x0c' ||
  c == '\x1c' || c == '\x1d' || c == '\x1e' || c == '\x1f' || c == '\x85' ||
  c == ' ' || c == ' ' || c == ' ' || c == ' ' || c == ' ' ||
  c == ' ' || c == ' ' || c == ' ' || c == ' ' || c == ' ' ||
  c == ' ' || c == ' ' || c == ' ' || c == ' ' || c == ' ' ||
  c == ' ' || c == ' ' || c == '　'

/-- Python str.strip(): remove leading and trailing whitespace. -/
def pyStrip (l : Str) : Str :=
  ((l.dropWhile isPyWs).reverse.dropWhile isPyWs).reverse

/-- Python str.rstrip(): remove trailing whitespace. -/
def pyRstrip (l : Str) : Str :=
  (l.reverse.dropWhile isPyWs).reverse

/-- The ASCII uppercase/lowercase letter table used to model str.lower. -/
def upperLower : List (Char × Char) :=
  [('A','a'), ('B','b'), ('C','c'), ('D','d'), ('E','e'), ('F','f'), ('G','g'),
   ('H','h'), ('I','i'), ('J','j'), ('K','k'), ('L','l'), ('M','m'), ('N','n'),
   ('O','o'), ('P','p'), ('Q','q'), ('R','r'), ('S','s'), ('T','t'), ('U','u'),
   ('V','v'), ('W','w'), ('X','x'), ('Y','y'), ('Z','z')]

/-- Python str.lower on a single character (ASCII letters). -/
def pyLowerChar (c : Char) : Char :=
  match upperLower.find? (fun p => p.1 == c) with
  | some p => p.2
  | none => c

/-- Python str.lower. -/
def pyLower (l : Str) : Str := l.map pyLowerChar

/-- The quote normalization of normalize_text: the three str.replace calls, each of
which replaces a single curly-quote character by its straight ASCII equivalent. -/
def quoteFix (c : Char) : Char :=
  if c = '’' then '\'' else if c = '“' then '"' else if c = '”' then '"' else c

/-- Attach a character to the front of the first piece of a split result. -/
def consHead (c : Char) : List Str → List Str
  | [] => [[c]]
  | w :: ws => (c :: w) :: ws

/-- Python str.split on a single newline character (keeps empty pieces). -/
def splitNl : Str → List Str
  | [] => [[]]
  | c :: rest => if c = '\n' then [] :: splitNl rest else consHead c (splitNl rest)

/-- Python sep.join for a single-character separator. -/
def joinSep (sep : Char) : List Str → Str
  | [] => []
  | [w] => w
  | w :: ws => w ++ sep :: joinSep sep ws

/-- The single space join used by both normalize_text and the perk description. -/
def spaceJoin (ws : List Str) : Str := joinSep ' ' ws

/-- The newline join used when assembling spell effect and crit text. -/
def nlJoin (ws : List Str) : Str := joinSep '\n' ws

/-- Scan for the first closing angle bracket: returns the characters before it and
the remainder after it, or none when the list has no closing bracket. -/
def splitAtGt : Str → Option (Str × Str)
  | [] => none
  | c :: rest =>
    if c = '>' then some ([], rest)
    else (splitAtGt rest).map (fun p => (c :: p.1, p.2))

/-- Fueled worker for the HTML tag removal of normalize_text.  At an opening
bracket, the leftmost regex match of an opening bracket, one or more characters
other than a closing bracket, and a closing bracket is removed; an opening
bracket with no match is kept.  Fuel at least the length of the input makes the
fuel-exhausted branch unreachable. -/
def stripTagsF : Nat → Str → Str
  | 0, l => l
  | _ + 1, [] => []
  | f + 1, c :: rest =>
    if c = '<' then
      match splitAtGt rest with
      | some (content, after) =>
        if content = [] then '<' :: stripTagsF f rest else stripTagsF f after
      | none => '<' :: stripTagsF f rest
    else c :: stripTagsF f rest

/-- The HTML tag removal step of normalize_text. -/
def stripTags (l : Str) : Str := stripTagsF l.length l

/-- Fueled worker for Python str.split() with no argument: split on whitespace
runs, discarding empty pieces. -/
def pySplitF : Nat → Str → List Str
  | 0, _ => []
  | _ + 1, [] => []
  | f + 1, c :: rest =>
    if isPyWs c then pySplitF f rest
    else (c :: rest.takeWhile (fun d => !isPyWs d)) :: pySplitF f (rest.dropWhile (fun d => !isPyWs d))

/-- Python str.split() with no argument. -/
def pySplit (l : Str) : List Str := pySplitF l.length l

/-- Fueled worker for Python str.split(sep) with a non-empty separator:
leftmost non-overlapping occurrences, empty pieces kept. -/
def splitSeqF (sep : Str) : Nat → Str → List Str
  | 0, l => [l]
  | f + 1, l =>
    if !sep.isEmpty && sep.isPrefixOf l then [] :: splitSeqF sep f (l.drop sep.length)
    else
      match l with
      | [] => [[]]
      | c :: rest => consHead c (splitSeqF sep f rest)

/-- Python str.split(sep) for a non-empty separator. -/
def splitSeq (sep l : Str) : List Str := splitSeqF sep (l.length + 1) l

/-- Python str.replace(pat, repl): replace every non-overlapping occurrence. -/
def replaceAll (pat repl l : Str) : Str := List.intercalate repl (splitSeq pat l)

/-- normalize_text of validate_perks.py lines 61 to 71 (identical in
validate_spells.py lines 80 to 90): empty text maps to empty text; otherwise
remove HTML tags, collapse whitespace via split and join, replace curly quotes
and apostrophes by straight ones, and strip the ends. -/
def normalize_text (text : Str) : Str :=
  if text = [] then []
  else pyStrip (List.map quoteFix (spaceJoin (pySplit (stripTags text))))

/-- Insert into a Python dict modelled as an association list: an existing key is
updated in place, a new key is appended at the end (Python dict order). -/
def dictInsert (k : Str) (v : α) : List (Str × α) → List (Str × α)
  | [] => [(k, v)]
  | (k', v') :: rest => if k' = k then (k, v) :: rest else (k', v') :: dictInsert k v rest

/-- Lookup in a Python dict modelled as an association list. -/
def dictGet (k : Str) (d : List (Str × α)) : Option α :=
  (d.find? (fun p => p.1 == k)).map Prod.snd

/-! Weapon comparison pieces, from validate_weapons.py. -/

/-- Numeric value of a list of ASCII digits, as read by int(). -/
def digitsVal (ds : Str) : Nat := ds.foldl (fun a c => 10 * a + (c.toNat - 48)) 0

/-- Python int() on an already stripped string: optional sign then one or more
ASCII digits. -/
def pyInt : Str → Option Int
  | [] => none
  | '+' :: ds =>
    if ds ≠ [] ∧ ds.all Char.isDigit then some (digitsVal ds) else none
  | '-' :: ds =>
    if ds ≠ [] ∧ ds.all Char.isDigit then some (-(digitsVal ds : Int)) else none
  | l =>
    if l.all Char.isDigit then some (digitsVal l) else none

/-- Match one or more digits followed by the marker character at the head of the
input, returning the number read from the digits. -/
def numThen (c : Char) (l : Str) : Option Nat :=
  let ds := l.takeWhile Char.isDigit
  if ds ≠ [] ∧ (l.dropWhile Char.isDigit).head? = some c then some (digitsVal ds) else none

/-- re.search of the pattern digits-then-marker: try every start position from the
left; at each position the digit run is maximal, which matches the regex engine
because the marker character is not a digit. -/
def searchNumBefore (c : Char) : Str → Option Nat
  | [] => none
  | x :: rest =>
    match numThen c (x :: rest) with
    | some n => some n
    | none => searchNumBefore c rest

/-- parse_value_to_copper of validate_weapons.py lines 59 to 75. -/
def parse_value_to_copper (v : Str) : Nat :=
  if v = [] ∨ v = cs "-" then 0
  else 100 * (searchNumBefore 'g' v).getD 0 + 10 * (searchNumBefore 's' v).getD 0

/-- The damage check of compare_weapons, validate_weapons.py lines 105 to 111:
true when a DAMAGE issue is appended. -/
def damageIssue (srcDamage genDamage : Str) : Bool :=
  let src := pyStrip srcDamage
  let srcNormalized := if (cs "1").isPrefixOf src || src == cs "1" then src else '1' :: src
  srcNormalized != genDamage && src != genDamage

/-- Modelled from the spec wording of claim C1, for refinement comparison only:
no DAMAGE issue exactly when the generated string equals the source string, or
the source omits a leading count (does not start with a digit) and the generated
string equals the source string with an implicit leading one prefixed. -/
def specDamageNoIssue (s g : Str) : Bool :=
  g == s || (!(match s.head? with | some c => c.isDigit | none => false) && g == '1' :: s)

/-- The grip lookup table of compare_weapons, validate_weapons.py line 114. -/
def grip_map : List (Str × Str) :=
  [(cs "1H", cs "1h"), (cs "2H", cs "2h"), (cs "V", cs "versatile"), (cs "F", cs "fist")]

/-- The expected grip of compare_weapons, validate_weapons.py line 115. -/
def expectedGrip (srcGrip : Str) : Str :=
  match dictGet (pyStrip srcGrip) grip_map with
  | some v => v
  | none => pyLower (pyStrip srcGrip)

/-- The slot check of compare_weapons, validate_weapons.py lines 119 to 126: true
when a SLOTS issue is appended.  A placeholder or empty slot field is compared as
zero; a failing int() raises ValueError, which the except clause swallows, so no
issue is appended in that case. -/
def slotsIssue (srcSlots : Str) (genSlots : Int) : Bool :=
  if pyStrip srcSlots = cs "-" ∨ pyStrip srcSlots = [] then decide ((0 : Int) ≠ genSlots)
  else
    match pyInt (pyStrip srcSlots) with
    | some n => decide (n ≠ genSlots)
    | none => false

/-! Perk parsing and comparison, from validate_perks.py. -/

/-- A source perk record, validate_perks.py lines 53 to 57. -/
structure Perk where
  name : Str
  prerequisite : Str
  description : Str
deriving DecidableEq, Repr

/-- A generated perk JSON record: its name field and the description field of its
system object (absent fields default to the empty string, as with dict.get). -/
structure GenPerk where
  name : Str
  description : Str
deriving DecidableEq, Repr

/-- The prerequisite marker of the perk parser. -/
def prereqMarker : Str := cs "**Prerequisite:**"

/-- One step of the perk block line loop, validate_perks.py lines 44 to 48.  The
state is the prerequisite text and the accumulated description lines. -/
def perkLineStep (st : Str × List Str) (line : Str) : Str × List Str :=
  if prereqMarker.isPrefixOf line then (pyStrip (replaceAll prereqMarker [] line), st.2)
  else if !(pyStrip line).isEmpty && !(cs "---").isPrefixOf line then (st.1, st.2 ++ [line])
  else st

/-- The predicate deciding whether a perk block line is kept as a description
line: not a prerequisite line, non-empty after stripping, and not a separator
(validate_perks.py lines 45 to 48, elif branch). -/
def keepDesc (line : Str) : Bool :=
  !prereqMarker.isPrefixOf line && (!(pyStrip line).isEmpty && !(cs "---").isPrefixOf line)

/-- The category header names skipped by the perk parser, validate_perks.py line 38. -/
def catHeaders : List Str :=
  [cs "Stat-Based Perks (No Training Required)", cs "Spell-Based Perks", cs "No Prerequisites"]

/-- Processing of one perk block, validate_perks.py lines 30 to 57: the block is
stripped and split into lines; a category header yields no record; otherwise the
remaining lines are folded for the prerequisite and description, and a record is
produced only when both the name and the assembled description are non-empty. -/
def processBlock (block : Str) : Option (Str × Perk) :=
  match splitNl (pyStrip block) with
  | [] => none
  | first :: rest =>
    if pyStrip first ∈ catHeaders then none
    else if pyStrip first ≠ [] ∧ pyStrip (spaceJoin (rest.foldl perkLineStep ([], [])).2) ≠ [] then
      some (pyLower (pyStrip first),
        ⟨pyStrip first, (rest.foldl perkLineStep ([], [])).1,
          pyStrip (spaceJoin (rest.foldl perkLineStep ([], [])).2)⟩)
    else none

/-- The section of the source text holding the perk descriptions,
validate_perks.py line 25: the piece after the first occurrence of the section
marker (and before the second, if any), or the whole text when the marker is
absent. -/
def perkSection (text : Str) : Str :=
  match splitSeq (cs "## Full Perk Descriptions") text with
  | _ :: second :: _ => second
  | _ => text

/-- Accumulating one perk block into the dict, validate_perks.py lines 52 to 57. -/
def perkFoldStep (acc : List (Str × Perk)) (b : Str) : List (Str × Perk) :=
  match processBlock b with
  | some kv => dictInsert kv.1 kv.2 acc
  | none => acc

/-- parse_source_perks of validate_perks.py lines 20 to 59. -/
def parse_source_perks (text : Str) : List (Str × Perk) :=
  ((splitSeq (cs "\n### ") (perkSection text)).drop 1).foldl perkFoldStep []

/-- The set of lowercase words of a text, validate_perks.py lines 107 and 108. -/
def wordFinset (t : Str) : Finset Str := (pySplit (pyLower t)).toFinset

/-- The similarity score of validate_perks.py lines 109 to 112: the Jaccard index
of the two word sets, taken as zero when either set is empty. -/
def jaccard (a b : Finset Str) : ℚ :=
  if a ≠ ∅ ∧ b ≠ ∅ then ((a ∩ b).card : ℚ) / ((a ∪ b).card : ℚ) else 0

/-- One reported perk issue.  The three strings the script appends for a single
description mismatch (header with similarity, source snippet, generated snippet)
are modelled as one structured entry carrying the same data. -/
inductive PerkIssue where
  | descMismatch (similarity : ℚ) (srcSnippet genSnippet : Str)
deriving DecidableEq, Repr

/-- The description check of compare_perks, validate_perks.py lines 101 to 117:
the issue list is non-empty exactly when an issue is reported. -/
def descIssues (src : Perk) (gen : GenPerk) : List PerkIssue :=
  if normalize_text src.description ≠ normalize_text gen.description then
    if jaccard (wordFinset (normalize_text src.description))
          (wordFinset (normalize_text gen.description)) < 9 / 10 then
      [.descMismatch
        (jaccard (wordFinset (normalize_text src.description))
          (wordFinset (normalize_text gen.description)))
        ((normalize_text src.description).take 150)
        ((normalize_text gen.description).take 150)]
    else []
  else []

/-- One perk discrepancy, validate_perks.py lines 89 to 93, 120 to 124 and 136
to 140. -/
inductive PerkDisc where
  | notInSource (perk : Str) (file : Str)
  | mismatch (perk : Str) (file : Str) (issues : List PerkIssue)
  | missing (perk : Str)
deriving DecidableEq, Repr

/-- The file field of a discrepancy; a missing record carries the MISSING marker. -/
def discFile : PerkDisc → Str
  | .notInSource _ f => f
  | .mismatch _ f _ => f
  | .missing _ => cs "MISSING"

/-- Whether a directory entry name ends in .json. -/
def endsWithJson (fn : Str) : Bool := (cs ".json").isSuffixOf fn

/-- Processing of one directory entry in filename order, validate_perks.py lines
77 to 124: non-JSON entries are skipped; a generated perk whose lowercased name
is not a source key is reported NOT IN SOURCE; otherwise the description check
may report a field mismatch. -/
def perkFileStep (source : List (Str × Perk)) (file : Str × GenPerk) : Option PerkDisc :=
  if endsWithJson file.1 then
    match dictGet (pyLower file.2.name) source with
    | none => some (.notInSource file.2.name file.1)
    | some src =>
      match descIssues src file.2 with
      | [] => none
      | issues => some (.mismatch file.2.name file.1 issues)
  else none

/-- The lowercased names of the generated records, validate_perks.py lines 127
to 132 (read from the unsorted directory listing; only membership is used). -/
def genPerkNames (dir : List (Str × GenPerk)) : List Str :=
  dir.filterMap (fun f => if endsWithJson f.1 then some (pyLower f.2.name) else none)

/-- One step of the missing-perk pass, validate_perks.py lines 134 to 140. -/
def missingPerkStep (names : List Str) (kv : Str × Perk) : Option PerkDisc :=
  if kv.1 ∈ names then none else some (.missing kv.2.name)

/-- The filename order used for the main pass (Python sorted on os.listdir). -/
def fileKeyLE (a b : Str × GenPerk) : Prop := a.1 ≤ b.1

instance : DecidableRel fileKeyLE := fun a b => inferInstanceAs (Decidable (a.1 ≤ b.1))

/-- compare_perks of validate_perks.py lines 73 to 142, over a source dict and a
directory modelled as a list of filename and record pairs in listing order. -/
def compare_perks (source : List (Str × Perk)) (dir : List (Str × GenPerk)) : List PerkDisc :=
  (List.insertionSort fileKeyLE dir).filterMap (perkFileStep source)
    ++ source.filterMap (missingPerkStep (genPerkNames dir))

/-! Spell parsing, from validate_spells.py. -/

/-- A source spell record, validate_spells.py lines 38 to 43.  The damage field
is none until a Damage Base line is seen. -/
structure Spell where
  name : Str
  damage : Option Str
  effect : Str
  crit : Str
deriving DecidableEq, Repr

/-- The parser state of parse_source_spells, validate_spells.py lines 22 to 27,
together with the accumulated spell dict. -/
structure SpellSt where
  curr : Option Str
  damage : Option Str
  effLines : List Str
  critLines : List Str
  inCrit : Bool
  acc : List (Str × Spell)
deriving DecidableEq, Repr

/-- The level-2 header marker of the spell parser. -/
def hdr2Marker : Str := cs "## "

/-- The damage marker of the spell parser. -/
def dmgMarker : Str := cs "**Damage Base:**"

/-- The crit marker of the spell parser. -/
def critMarker : Str := cs "**Crit:**"

/-- Saving the current spell into the dict, validate_spells.py lines 35 to 43. -/
def saveSpell (st : SpellSt) : List (Str × Spell) :=
  match st.curr with
  | none => st.acc
  | some nm =>
    dictInsert (pyLower nm)
      ⟨nm, st.damage, pyStrip (nlJoin st.effLines), pyStrip (nlJoin st.critLines)⟩ st.acc

/-- The damage value read from a Damage Base line, validate_spells.py lines 52
and 53: the text after the marker, stripped, mapped to empty when it is the
dash placeholder and lowercased otherwise. -/
def spellDamageValue (line : Str) : Str :=
  if pyStrip (replaceAll dmgMarker [] line) = cs "-" then []
  else pyLower (pyStrip (replaceAll dmgMarker [] line))

/-- The crit lines contributed by a Crit marker line itself, validate_spells.py
lines 57 to 59: the stripped text after the marker when it is non-empty. -/
def critMarkerLines (line : Str) : List Str :=
  if pyStrip (replaceAll critMarker [] line) = [] then []
  else [pyStrip (replaceAll critMarker [] line)]

/-- One step of the spell parser line loop, validate_spells.py lines 29 to 65. -/
def spellLineStep (st : SpellSt) (rawLine : Str) : SpellSt :=
  let line := pyRstrip rawLine
  if hdr2Marker.isPrefixOf line then
    { curr := some (pyStrip (line.drop 3)), damage := none,
      effLines := [], critLines := [], inCrit := false, acc := saveSpell st }
  else if dmgMarker.isPrefixOf line then
    { st with damage := some (spellDamageValue line) }
  else if critMarker.isPrefixOf line then
    { st with inCrit := true, critLines := st.critLines ++ critMarkerLines line }
  else if st.curr.isSome && !line.isEmpty && !(cs "---").isPrefixOf line then
    if st.inCrit then { st with critLines := st.critLines ++ [line] }
    else { st with effLines := st.effLines ++ [line] }
  else st

/-- parse_source_spells of validate_spells.py lines 20 to 78. -/
def parse_source_spells (text : Str) : List (Str × Spell) :=
  saveSpell ((splitNl (pyStrip text)).foldl spellLineStep ⟨none, none, [], [], false, []⟩)

/-- Strict filename order on directory entries. -/
def fileKeyLT (a b : Str × GenPerk) : Prop := a.1 < b.1

instance : IsTotal (Str × GenPerk) fileKeyLE := ⟨fun a b => le_total a.1 b.1⟩

instance : IsTrans (Str × GenPerk) fileKeyLE := ⟨fun _ _ _ h1 h2 => le_trans h1 h2⟩

instance : IsAntisymm (Str × GenPerk) fileKeyLT :=
  ⟨fun _ _ h1 h2 => absurd h2 (not_lt.mpr (le_of_lt h1))⟩

/-- No substring of the input matches the tag pattern: whenever the input splits
as a prefix, an opening bracket, a middle free of closing brackets, a closing
bracket and a suffix, the middle is empty.  This is the invariant characterizing
strings on which the tag removal step is the identity. -/
def NoTag (l : Str) : Prop :=
  ∀ a m b : Str, l = a ++ '<' :: (m ++ '>' :: b) → '>' ∉ m → m = []



/-! Claim theorems. -/

/-- C1, counterexample: the claim states that no DAMAGE issue is reported exactly
when the generated string equals the source string or equals it with an implicit
leading one prefixed when the source omits a leading count.  For source damage
"2d6" (which has a leading count) and generated damage "12d6", the code reports
no issue although the generated string differs from the source and the spec
reading requires an issue. -/
theorem c1_counterexample :
    damageIssue (cs "2d6") (cs "12d6") = false ∧ cs "12d6" ≠ cs "2d6" ∧
      specDamageNoIssue (cs "2d6") (cs "12d6") = false := by
  refine ⟨by decide, by decide, by decide⟩

/-- C1, amended: no DAMAGE issue is reported exactly when the generated string
equals the stripped source string, or equals the stripped source string with a
leading one prefixed, where the prefix is applied whenever the stripped source
string does not already start with the character one, even when it starts with a
different digit; in particular d6 is treated as equivalent to 1d6 while 2d6 is
not treated as equivalent to d6. -/
theorem c1_damage_issue_amended :
    (∀ s g : Str, damageIssue s g = false ↔
      (g = pyStrip s ∨
        g = (if (cs "1").isPrefixOf (pyStrip s) || pyStrip s == cs "1" then pyStrip s
             else '1' :: pyStrip s))) ∧
    damageIssue (cs "d6") (cs "1d6") = false ∧ damageIssue (cs "2d6") (cs "d6") = true := by
  refine ⟨?_, by decide, by decide⟩
  intro s g
  simp only [damageIssue, Bool.and_eq_false_iff, bne_eq_false_iff_eq]
  constructor
  · rintro (h | h)
    · right; exact h.symm
    · left; exact h.symm
  · rintro (h | h)
    · right; exact h.symm
    · left; exact h.symm

/-- C3: the value conversion returns one hundred copper per gold unit of the
first digits-then-g match plus ten copper per silver unit of the first
digits-then-s match, each taken as zero when the pattern does not match, so text
matching neither pattern contributes zero; in particular 1g gives 100, 5s gives
50, 1g5s gives 150, and the dash placeholder and the empty string give 0. -/
theorem c3_value_to_copper :
    (∀ v : Str, parse_value_to_copper v =
        100 * (searchNumBefore 'g' v).getD 0 + 10 * (searchNumBefore 's' v).getD 0) ∧
    parse_value_to_copper (cs "1g") = 100 ∧ parse_value_to_copper (cs "5s") = 50 ∧
    parse_value_to_copper (cs "1g5s") = 150 ∧ parse_value_to_copper (cs "-") = 0 ∧
    parse_value_to_copper (cs "") = 0 := by
  refine ⟨?_, by decide, by decide, by decide, by decide, by decide⟩
  intro v
  unfold parse_value_to_copper
  split
  · rename_i h
    rcases h with h | h <;> subst h <;> decide
  · rfl

/-- C4: when the stripped slot field is the dash placeholder or empty, the source
slot count is compared as zero, so no SLOTS issue is reported exactly when the
generated slot count is zero; when the stripped slot field is neither of those
and does not parse as an integer, the ValueError is swallowed and no SLOTS issue
is reported regardless of the generated value. -/
theorem c4_slots_check :
    (∀ (s : Str) (g : Int), (pyStrip s = cs "-" ∨ pyStrip s = []) →
        (slotsIssue s g = false ↔ g = 0)) ∧
    (∀ (s : Str) (g : Int), ¬(pyStrip s = cs "-" ∨ pyStrip s = []) →
        pyInt (pyStrip s) = none → slotsIssue s g = false) := by
  constructor
  · intro s g h
    unfold slotsIssue
    rw [if_pos h]
    simp only [decide_eq_false_iff_not, not_ne_iff]
    exact eq_comm
  · intro s g h hp
    unfold slotsIssue
    rw [if_neg h, hp]

/-- C4, witness: the placeholder slot field compared against zero reports nothing,
and a non-numeric slot field is skipped even against a non-zero generated count. -/
theorem c4_slots_check_witness :
    (slotsIssue (cs " - ") (0 : Int) = false ↔ (0 : Int) = 0) ∧
      slotsIssue (cs "abc") (7 : Int) = false :=
  ⟨c4_slots_check.1 (cs " - ") 0 (by decide), c4_slots_check.2 (cs "abc") 7 (by decide) (by decide)⟩

/-- C6: the grip lookup maps 1H to 1h, 2H to 2h, V to versatile and F to fist,
and any grip code whose stripped form is not a table key passes through
lowercased after trimming. -/
theorem c6_grip_mapping :
    expectedGrip (cs "1H") = cs "1h" ∧ expectedGrip (cs "2H") = cs "2h" ∧
    expectedGrip (cs "V") = cs "versatile" ∧ expectedGrip (cs "F") = cs "fist" ∧
    (∀ g : Str, pyStrip g ∉ [cs "1H", cs "2H", cs "V", cs "F"] →
      expectedGrip g = pyLower (pyStrip g)) := by
  refine ⟨by decide, by decide, by decide, by decide, ?_⟩
  intro g hg
  simp only [List.mem_cons, List.not_mem_nil, or_false, not_or] at hg
  obtain ⟨h1, h2, h3, h4⟩ := hg
  unfold expectedGrip
  have hnone : dictGet (pyStrip g) grip_map = none := by
    unfold dictGet grip_map
    rw [List.find?_eq_none.mpr ?_]
    · rfl
    · intro p hp
      simp only [List.mem_cons, List.not_mem_nil, or_false] at hp
      rcases hp with h | h | h | h <;> subst h <;>
        simp only [beq_eq_false_iff_ne, ne_eq, Bool.not_eq_true] <;>
        first
        | exact fun hc => h1 hc.symm
        | exact fun hc => h2 hc.symm
        | exact fun hc => h3 hc.symm
        | exact fun hc => h4 hc.symm
  rw [hnone]

/-- C6, witness: the unrecognized grip code Thrown passes through lowercased. -/
theorem c6_grip_mapping_witness :
    expectedGrip (cs "Thrown") = pyLower (pyStrip (cs "Thrown")) :=
  c6_grip_mapping.2.2.2.2 (cs "Thrown") (by decide)


/-! Helper lemmas for the perk parser claims. -/

/-- splitNl always yields at least one piece. -/
theorem splitNl_ne_nil (l : Str) : splitNl l ≠ [] := by
  cases l with
  | nil => simp [splitNl]
  | cons c rest =>
    unfold splitNl
    by_cases h : c = '\n'
    · rw [if_pos h]; simp
    · rw [if_neg h]
      cases splitNl rest <;> simp [consHead]

/-- Unfolding of processBlock at a block whose stripped text splits into a first
line and remaining lines. -/
theorem processBlock_eq (block first : Str) (rest : List Str)
    (hs : splitNl (pyStrip block) = first :: rest) :
    processBlock block =
      if pyStrip first ∈ catHeaders then none
      else if pyStrip first ≠ [] ∧
          pyStrip (spaceJoin (rest.foldl perkLineStep ([], [])).2) ≠ [] then
        some (pyLower (pyStrip first),
          ⟨pyStrip first, (rest.foldl perkLineStep ([], [])).1,
            pyStrip (spaceJoin (rest.foldl perkLineStep ([], [])).2)⟩)
      else none := by
  unfold processBlock
  rw [hs]

/-- The description lines accumulated by the perk block line loop are exactly the
lines kept by keepDesc, in order. -/
theorem foldl_perkLineStep_snd :
    ∀ (lines : List Str) (st : Str × List Str),
      (lines.foldl perkLineStep st).2 = st.2 ++ lines.filter keepDesc := by
  intro lines
  induction lines with
  | nil => intro st; simp
  | cons l ls ih =>
    intro st
    rw [List.foldl_cons, ih]
    cases h1 : prereqMarker.isPrefixOf l with
    | true =>
      have hk : keepDesc l = false := by simp [keepDesc, h1]
      have hstep : perkLineStep st l = (pyStrip (replaceAll prereqMarker [] l), st.2) := by
        unfold perkLineStep
        rw [h1]
        simp
      rw [hstep]
      simp [List.filter_cons, hk]
    | false =>
      cases h2 : (!(pyStrip l).isEmpty && !(cs "---").isPrefixOf l) with
      | true =>
        have hk : keepDesc l = true := by
          simp only [keepDesc, h1, h2, Bool.not_false, Bool.true_and]
        have hstep : perkLineStep st l = (st.1, st.2 ++ [l]) := by
          unfold perkLineStep
          rw [h1, h2]
          simp
        rw [hstep]
        simp [List.filter_cons, hk]
      | false =>
        have hk : keepDesc l = false := by
          simp only [keepDesc, h1, h2, Bool.not_false, Bool.true_and]
        have hstep : perkLineStep st l = st := by
          unfold perkLineStep
          rw [h1, h2]
          simp
        rw [hstep]
        simp [List.filter_cons, hk]

/-- Membership after a dict insertion. -/
theorem mem_dictInsert {α : Type} {kv : Str × α} {k : Str} {v : α} :
    ∀ {d : List (Str × α)}, kv ∈ dictInsert k v d → kv = (k, v) ∨ kv ∈ d := by
  intro d
  induction d with
  | nil => intro h; simp [dictInsert] at h; left; exact h
  | cons p rest ih =>
    intro h
    unfold dictInsert at h
    by_cases hk : p.1 = k
    · rw [if_pos hk] at h
      rcases List.mem_cons.mp h with h | h
      · left; exact h
      · right; exact List.mem_cons_of_mem p h
    · rw [if_neg hk] at h
      rcases List.mem_cons.mp h with h | h
      · right; exact h ▸ List.mem_cons_self p rest
      · rcases ih h with h | h
        · left; exact h
        · right; exact List.mem_cons_of_mem p h

/-- Every record produced by processBlock is keyed by a lowercased name. -/
theorem processBlock_key {block : Str} {kv : Str × Perk} (h : processBlock block = some kv) :
    ∃ n : Str, kv.1 = pyLower n := by
  cases hs : splitNl (pyStrip block) with
  | nil => exact absurd hs (splitNl_ne_nil _)
  | cons first rest =>
    rw [processBlock_eq block first rest hs] at h
    by_cases hc : pyStrip first ∈ catHeaders
    · rw [if_pos hc] at h; cases h
    · rw [if_neg hc] at h
      by_cases hcond : pyStrip first ≠ [] ∧
          pyStrip (spaceJoin (rest.foldl perkLineStep ([], [])).2) ≠ []
      · rw [if_pos hcond] at h
        injection h with h
        exact ⟨pyStrip first, by rw [← h]⟩
      · rw [if_neg hcond] at h; cases h

/-- Every key of the parsed perk dict is a lowercased name. -/
theorem parse_source_perks_keys (text : Str) (kv : Str × Perk)
    (h : kv ∈ parse_source_perks text) : ∃ n : Str, kv.1 = pyLower n := by
  have main : ∀ (bs : List Str) (acc : List (Str × Perk)),
      (∀ kv2 ∈ acc, ∃ n : Str, kv2.1 = pyLower n) →
      ∀ kv2 ∈ bs.foldl perkFoldStep acc, ∃ n : Str, kv2.1 = pyLower n := by
    intro bs
    induction bs with
    | nil => intro acc hacc kv2 h2; exact hacc kv2 h2
    | cons b bs ih =>
      intro acc hacc kv2 h2
      rw [List.foldl_cons] at h2
      refine ih _ ?_ kv2 h2
      intro kv3 hkv3
      unfold perkFoldStep at hkv3
      cases hb : processBlock b with
      | none => rw [hb] at hkv3; exact hacc kv3 hkv3
      | some kv4 =>
        rw [hb] at hkv3
        rcases mem_dictInsert hkv3 with h3 | h3
        · obtain ⟨n, hn⟩ := processBlock_key hb
          exact ⟨n, by rw [h3]; exact hn⟩
        · exact hacc kv3 h3
  exact main _ [] (by intro kv2 h2; cases h2) kv h

/-- str.lower of a character is never an ASCII uppercase letter. -/
theorem pyLowerChar_ne_of_upper (d : Char) (hd : d ∈ upperLower.map Prod.fst) (c : Char) :
    pyLowerChar c ≠ d := by
  unfold pyLowerChar
  cases hf : upperLower.find? (fun p => p.1 == c) with
  | some p =>
    have hp : p ∈ upperLower := List.mem_of_find?_eq_some hf
    have hval : ∀ q ∈ upperLower, ∀ x ∈ upperLower.map Prod.fst, q.2 ≠ x := by decide
    exact hval p hp d hd
  | none =>
    intro hcd
    have hcd' : c = d := hcd
    rw [List.find?_eq_none] at hf
    simp only [List.mem_map] at hd
    obtain ⟨q, hq, hqd⟩ := hd
    apply hf q hq
    rw [hqd, hcd']
    simp

/-- str.lower of a string never starts with an ASCII uppercase letter. -/
theorem pyLower_ne_upper_cons (n : Str) (d : Char) (hd : d ∈ upperLower.map Prod.fst)
    (t : Str) : pyLower n ≠ d :: t := by
  cases n with
  | nil => simp [pyLower]
  | cons c m =>
    intro h
    rw [pyLower, List.map_cons] at h
    injection h with h1 _
    exact pyLowerChar_ne_of_upper d hd c h1

/-- C8: a perk block whose stripped first line is one of the three category
header strings produces no record, and the category header strings never appear
as keys of the parsed source mapping for any input text. -/
theorem c8_category_headers :
    (∀ (block first : Str) (rest : List Str), splitNl (pyStrip block) = first :: rest →
      pyStrip first ∈ catHeaders → processBlock block = none) ∧
    (∀ (text h : Str), h ∈ catHeaders → dictGet h (parse_source_perks text) = none) := by
  constructor
  · intro block first rest hs hc
    rw [processBlock_eq block first rest hs, if_pos hc]
  · intro text h hh
    unfold dictGet
    cases hf : (parse_source_perks text).find? (fun p => p.1 == h) with
    | none => rfl
    | some q =>
      exfalso
      have hq := List.mem_of_find?_eq_some hf
      have hpe := List.find?_some hf
      have hph : q.1 = h := by simpa using hpe
      obtain ⟨n, hn⟩ := parse_source_perks_keys text q hq
      have hlow : pyLower n = h := by rw [← hn, hph]
      have hh' : h = cs "Stat-Based Perks (No Training Required)" ∨
          h = cs "Spell-Based Perks" ∨ h = cs "No Prerequisites" := by
        simpa [catHeaders] using hh
      rcases hh' with rfl | rfl | rfl
      · exact pyLower_ne_upper_cons n 'S' (by decide)
          (cs "tat-Based Perks (No Training Required)") (by rw [hlow]; decide)
      · exact pyLower_ne_upper_cons n 'S' (by decide) (cs "pell-Based Perks") (by rw [hlow]; decide)
      · exact pyLower_ne_upper_cons n 'N' (by decide) (cs "o Prerequisites") (by rw [hlow]; decide)

/-- C8, witness: a block headed by the No Prerequisites category header yields no
record, and that header is not a key of a concretely parsed mapping. -/
theorem c8_category_headers_witness :
    processBlock (cs "No Prerequisites\nSome text") = none ∧
    dictGet (cs "No Prerequisites")
      (parse_source_perks (cs "### Iron Will\nYou resist fear.")) = none :=
  ⟨c8_category_headers.1 (cs "No Prerequisites\nSome text") (cs "No Prerequisites")
      [cs "Some text"] (by decide) (by decide),
    c8_category_headers.2 (cs "### Iron Will\nYou resist fear.") (cs "No Prerequisites")
      (by decide)⟩

/-- C10: a perk record is produced only when both its name and its assembled
description are non-empty; the description is the space join of exactly the
lines kept by keepDesc, so a line carrying the prerequisite marker is never part
of the description; and the concrete block consisting only of a prerequisite
line and a separator line yields no record at all. -/
theorem c10_perk_record_conditions :
    (∀ (block k : Str) (r : Perk), processBlock block = some (k, r) →
      r.name ≠ [] ∧ r.description ≠ [] ∧
      ∃ first rest, splitNl (pyStrip block) = first :: rest ∧
        r.description = pyStrip (spaceJoin (rest.filter keepDesc)) ∧
        ∀ line ∈ rest, prereqMarker.isPrefixOf line = true → line ∉ rest.filter keepDesc) ∧
    processBlock (cs "**Prerequisite:** Strength 13\n---") = none := by
  refine ⟨?_, by decide⟩
  intro block k r h
  cases hs : splitNl (pyStrip block) with
  | nil => exact absurd hs (splitNl_ne_nil _)
  | cons first rest =>
    rw [processBlock_eq block first rest hs] at h
    by_cases hc : pyStrip first ∈ catHeaders
    · rw [if_pos hc] at h; cases h
    · rw [if_neg hc] at h
      by_cases hcond : pyStrip first ≠ [] ∧
          pyStrip (spaceJoin (rest.foldl perkLineStep ([], [])).2) ≠ []
      · rw [if_pos hcond] at h
        injection h with h
        have hr : r = ⟨pyStrip first, (rest.foldl perkLineStep ([], [])).1,
            pyStrip (spaceJoin (rest.foldl perkLineStep ([], [])).2)⟩ :=
          (congrArg Prod.snd h).symm
        subst hr
        refine ⟨hcond.1, hcond.2, first, rest, rfl, ?_, ?_⟩
        · show pyStrip (spaceJoin (rest.foldl perkLineStep ([], [])).2) =
            pyStrip (spaceJoin (rest.filter keepDesc))
          rw [foldl_perkLineStep_snd, List.nil_append]
        · intro line _ hpre hmem
          rw [List.mem_filter] at hmem
          simp [keepDesc, hpre] at hmem
      · rw [if_neg hcond] at h; cases h

/-- C10, witness: a concrete one-line perk block produces a record with non-empty
name and description assembled from the kept lines. -/
theorem c10_perk_record_witness :
    (Perk.mk (cs "Iron Will") [] (cs "You resist fear.")).name ≠ [] ∧
    (Perk.mk (cs "Iron Will") [] (cs "You resist fear.")).description ≠ [] ∧
    ∃ first rest, splitNl (pyStrip (cs "Iron Will\nYou resist fear.")) = first :: rest ∧
      (Perk.mk (cs "Iron Will") [] (cs "You resist fear.")).description =
        pyStrip (spaceJoin (rest.filter keepDesc)) ∧
      ∀ line ∈ rest, prereqMarker.isPrefixOf line = true → line ∉ rest.filter keepDesc :=
  c10_perk_record_conditions.1 (cs "Iron Will\nYou resist fear.") (cs "iron will")
    (Perk.mk (cs "Iron Will") [] (cs "You resist fear.")) (by decide)

/-! Spell parser claims. -/

/-- C5, counterexample: in the block for spell Zap, the line carrying the Damage
Base marker is non-empty, is not a separator, and appears before any Crit marker
line, yet it does not accumulate into the effect text: the parsed effect is only
the following line, not the newline join of both lines that the claim predicts. -/
theorem c5_counterexample :
    dictGet (cs "zap")
        (parse_source_spells (cs "## Zap\n**Damage Base:** d6\nSome effect text")) =
      some ⟨cs "Zap", some (cs "d6"), cs "Some effect text", []⟩ ∧
    cs "**Damage Base:** d6" ≠ [] ∧
    (cs "---").isPrefixOf (cs "**Damage Base:** d6") = false ∧
    pyStrip (nlJoin [cs "**Damage Base:** d6", cs "Some effect text"]) =
      cs "**Damage Base:** d6\nSome effect text" ∧
    cs "Some effect text" ≠ cs "**Damage Base:** d6\nSome effect text" := by
  refine ⟨by decide, by decide, by decide, by decide, by decide⟩

/-- C5, amended: while a spell is current, a non-empty non-separator line that is
not a level-2 header and carries neither the Damage Base marker nor the Crit
marker accumulates into the effect lines before the first Crit marker has been
seen and into the crit lines afterwards; a Crit marker line switches to crit
accumulation and contributes only its stripped text after the marker; a level-2
header line resets both buffers and the crit flag. -/
theorem c5_spell_accumulation_amended :
    (∀ (st : SpellSt) (rawLine nm : Str), st.curr = some nm →
      hdr2Marker.isPrefixOf (pyRstrip rawLine) = false →
      dmgMarker.isPrefixOf (pyRstrip rawLine) = false →
      critMarker.isPrefixOf (pyRstrip rawLine) = false →
      pyRstrip rawLine ≠ [] →
      (cs "---").isPrefixOf (pyRstrip rawLine) = false →
      (st.inCrit = false →
        spellLineStep st rawLine = { st with effLines := st.effLines ++ [pyRstrip rawLine] }) ∧
      (st.inCrit = true →
        spellLineStep st rawLine = { st with critLines := st.critLines ++ [pyRstrip rawLine] })) ∧
    (∀ (st : SpellSt) (rawLine : Str),
      hdr2Marker.isPrefixOf (pyRstrip rawLine) = false →
      dmgMarker.isPrefixOf (pyRstrip rawLine) = false →
      critMarker.isPrefixOf (pyRstrip rawLine) = true →
      spellLineStep st rawLine =
        { st with inCrit := true,
                  critLines := st.critLines ++ critMarkerLines (pyRstrip rawLine) }) ∧
    (∀ (st : SpellSt) (rawLine : Str),
      hdr2Marker.isPrefixOf (pyRstrip rawLine) = true →
      (spellLineStep st rawLine).effLines = [] ∧ (spellLineStep st rawLine).critLines = [] ∧
      (spellLineStep st rawLine).inCrit = false) := by
  refine ⟨?_, ?_, ?_⟩
  · intro st rawLine nm hcurr h1 h2 h3 hne hsep
    have hsome : st.curr.isSome = true := by rw [hcurr]; rfl
    constructor
    · intro hic
      simp only [spellLineStep]
      rw [h1, h2, h3]
      simp [hsome, hne, hsep, hic]
    · intro hic
      simp only [spellLineStep]
      rw [h1, h2, h3]
      simp [hsome, hne, hsep, hic]
  · intro st rawLine h1 h2 h3
    simp only [spellLineStep]
    rw [h1, h2, h3]
    simp
  · intro st rawLine h1
    simp only [spellLineStep]
    rw [h1]
    simp

/-- C5, witness: a concrete accumulation step with a current spell appends the
line to the effect lines while the crit flag is off. -/
theorem c5_spell_accumulation_witness :
    ((⟨some (cs "Zap"), none, [cs "A"], [], false, []⟩ : SpellSt).inCrit = false →
      spellLineStep ⟨some (cs "Zap"), none, [cs "A"], [], false, []⟩ (cs "More text") =
        { (⟨some (cs "Zap"), none, [cs "A"], [], false, []⟩ : SpellSt) with
            effLines := [cs "A"] ++ [pyRstrip (cs "More text")] }) ∧
    ((⟨some (cs "Zap"), none, [cs "A"], [], false, []⟩ : SpellSt).inCrit = true →
      spellLineStep ⟨some (cs "Zap"), none, [cs "A"], [], false, []⟩ (cs "More text") =
        { (⟨some (cs "Zap"), none, [cs "A"], [], false, []⟩ : SpellSt) with
            critLines := [] ++ [pyRstrip (cs "More text")] }) :=
  c5_spell_accumulation_amended.1 ⟨some (cs "Zap"), none, [cs "A"], [], false, []⟩
    (cs "More text") (cs "Zap") (by decide) (by decide) (by decide) (by decide) (by decide)
    (by decide)

/-! Perk description comparison claim. -/

/-- C2: a description mismatch issue is reported exactly when the normalized
source and generated descriptions differ and the similarity score (the Jaccard
index of the lowercase word sets, taken as zero when either set is empty) is
strictly below nine tenths; and a concrete pair differing only by trailing
whitespace and curly quotes produces no issue. -/
theorem c2_description_issue_iff :
    (∀ (src : Perk) (gen : GenPerk), descIssues src gen ≠ [] ↔
      (normalize_text src.description ≠ normalize_text gen.description ∧
        jaccard (wordFinset (normalize_text src.description))
          (wordFinset (normalize_text gen.description)) < 9 / 10)) ∧
    descIssues ⟨cs "Iron Will", [], cs "He said “hello”  "⟩
      ⟨cs "Iron Will", cs "He said \"hello\""⟩ = [] := by
  constructor
  · intro src gen
    unfold descIssues
    by_cases h1 : normalize_text src.description ≠ normalize_text gen.description
    · rw [if_pos h1]
      by_cases h2 : jaccard (wordFinset (normalize_text src.description))
          (wordFinset (normalize_text gen.description)) < 9 / 10
      · rw [if_pos h2]
        simp [h1, h2]
      · rw [if_neg h2]
        simp [h1, h2]
    · rw [if_neg h1]
      simp [h1]
  · decide

/-! Comparator determinism and ordering (claim C9). -/

/-- Sorting a directory listing by filename gives the same list for any two
listing orders, provided the filenames are distinct. -/
theorem insertionSort_eq_of_perm (d₁ d₂ : List (Str × GenPerk)) (hp : d₁.Perm d₂)
    (hn : (d₁.map Prod.fst).Nodup) :
    List.insertionSort fileKeyLE d₁ = List.insertionSort fileKeyLE d₂ := by
  have hps₁ := List.perm_insertionSort fileKeyLE d₁
  have hps₂ := List.perm_insertionSort fileKeyLE d₂
  have hs₁ := List.sorted_insertionSort fileKeyLE d₁
  have hs₂ := List.sorted_insertionSort fileKeyLE d₂
  have hn₂ : (d₂.map Prod.fst).Nodup := ((hp.map Prod.fst).nodup_iff).mp hn
  have hn₁' : ((List.insertionSort fileKeyLE d₁).map Prod.fst).Nodup :=
    ((hps₁.map Prod.fst).nodup_iff).mpr hn
  have hn₂' : ((List.insertionSort fileKeyLE d₂).map Prod.fst).Nodup :=
    ((hps₂.map Prod.fst).nodup_iff).mpr hn₂
  have hst₁ : List.Sorted fileKeyLT (List.insertionSort fileKeyLE d₁) := by
    unfold List.Nodup at hn₁'
    rw [List.pairwise_map] at hn₁'
    exact (hs₁.and hn₁').imp (fun h => lt_of_le_of_ne h.1 h.2)
  have hst₂ : List.Sorted fileKeyLT (List.insertionSort fileKeyLE d₂) := by
    unfold List.Nodup at hn₂'
    rw [List.pairwise_map] at hn₂'
    exact (hs₂.and hn₂').imp (fun h => lt_of_le_of_ne h.1 h.2)
  exact List.eq_of_perm_of_sorted (hps₁.trans (hp.trans hps₂.symm)) hst₁ hst₂

/-- Pairwise order transported through filterMap. -/
theorem pairwise_filterMap_of_pairwise {α β : Type} {R : α → α → Prop} {S : β → β → Prop}
    (f : α → Option β) (H : ∀ a b x y, f a = some x → f b = some y → R a b → S x y) :
    ∀ {l : List α}, List.Pairwise R l → List.Pairwise S (l.filterMap f) := by
  intro l
  induction l with
  | nil => intro _; simp
  | cons a l ih =>
    intro h
    rw [List.filterMap_cons]
    cases hf : f a with
    | none => exact ih h.of_cons
    | some x =>
      refine List.Pairwise.cons ?_ (ih h.of_cons)
      intro y hy
      obtain ⟨b, hb, hfb⟩ := List.mem_filterMap.mp hy
      exact H a b x y hf hfb (List.rel_of_pairwise_cons h hb)

/-- A discrepancy produced by the main pass carries the filename of the directory
entry it came from. -/
theorem perkFileStep_file {source : List (Str × Perk)} {f : Str × GenPerk} {d : PerkDisc}
    (h : perkFileStep source f = some d) : discFile d = f.1 := by
  unfold perkFileStep at h
  split at h
  · split at h
    · injection h with h
      rw [← h]
      rfl
    · split at h
      · cases h
      · injection h with h
        rw [← h]
        rfl
  · cases h

/-- A discrepancy produced by the missing pass carries the MISSING marker. -/
theorem missingPerkStep_file {names : List Str} {kv : Str × Perk} {d : PerkDisc}
    (h : missingPerkStep names kv = some d) : discFile d = cs "MISSING" := by
  unfold missingPerkStep at h
  by_cases hm : kv.1 ∈ names
  · rw [if_pos hm] at h; cases h
  · rw [if_neg hm] at h; injection h with h; rw [← h]; rfl

/-- C9: the comparison stage is deterministic: for a fixed source dict and a fixed
set of directory entries with distinct filenames, any two listing orders produce
the same discrepancy list; and the list decomposes into the main pass, whose
discrepancies are ordered by sorted filename, followed by the MISSING entries,
which are drawn from the source dict in its parse order. -/
theorem c9_compare_deterministic :
    (∀ (source : List (Str × Perk)) (d₁ d₂ : List (Str × GenPerk)),
      d₁.Perm d₂ → (d₁.map Prod.fst).Nodup →
      compare_perks source d₁ = compare_perks source d₂) ∧
    (∀ (source : List (Str × Perk)) (dir : List (Str × GenPerk)),
      compare_perks source dir =
        (List.insertionSort fileKeyLE dir).filterMap (perkFileStep source)
          ++ source.filterMap (missingPerkStep (genPerkNames dir)) ∧
      List.Pairwise (fun x y => discFile x ≤ discFile y)
        ((List.insertionSort fileKeyLE dir).filterMap (perkFileStep source)) ∧
      ∀ d ∈ source.filterMap (missingPerkStep (genPerkNames dir)),
        discFile d = cs "MISSING") := by
  constructor
  · intro source d₁ d₂ hp hn
    unfold compare_perks
    rw [insertionSort_eq_of_perm d₁ d₂ hp hn]
    have hgn : (genPerkNames d₁).Perm (genPerkNames d₂) := hp.filterMap _
    have h2 : source.filterMap (missingPerkStep (genPerkNames d₁)) =
        source.filterMap (missingPerkStep (genPerkNames d₂)) := by
      apply List.filterMap_congr
      intro kv _
      unfold missingPerkStep
      by_cases hm : kv.1 ∈ genPerkNames d₁
      · rw [if_pos hm, if_pos (hgn.mem_iff.mp hm)]
      · rw [if_neg hm, if_neg (fun hc => hm (hgn.mem_iff.mpr hc))]
    rw [h2]
  · intro source dir
    refine ⟨rfl, ?_, ?_⟩
    · exact pairwise_filterMap_of_pairwise (perkFileStep source)
        (fun a b x y hx hy hr => by
          rw [perkFileStep_file hx, perkFileStep_file hy]; exact hr)
        (List.sorted_insertionSort fileKeyLE dir)
    · intro d hd
      obtain ⟨kv, _, hkv⟩ := List.mem_filterMap.mp hd
      exact missingPerkStep_file hkv

/-- C9, witness: two concrete listing orders of the same two generated files give
the same discrepancy list. -/
theorem c9_compare_deterministic_witness :
    compare_perks [(cs "alpha", ⟨cs "Alpha", [], cs "Does a thing."⟩)]
        [(cs "b.json", ⟨cs "Beta", cs "Hits hard."⟩),
         (cs "a.json", ⟨cs "Alpha", cs "Does a thing."⟩)] =
      compare_perks [(cs "alpha", ⟨cs "Alpha", [], cs "Does a thing."⟩)]
        [(cs "a.json", ⟨cs "Alpha", cs "Does a thing."⟩),
         (cs "b.json", ⟨cs "Beta", cs "Hits hard."⟩)] :=
  c9_compare_deterministic.1 [(cs "alpha", ⟨cs "Alpha", [], cs "Does a thing."⟩)]
    [(cs "b.json", ⟨cs "Beta", cs "Hits hard."⟩),
     (cs "a.json", ⟨cs "Alpha", cs "Does a thing."⟩)]
    [(cs "a.json", ⟨cs "Alpha", cs "Does a thing."⟩),
     (cs "b.json", ⟨cs "Beta", cs "Hits hard."⟩)]
    (by decide) (by decide)

/-! Helper lemmas for the text normalizer idempotence claim (C7). -/

/-- A successful angle bracket scan decomposes the input, and the prefix holds no
closing bracket. -/
theorem splitAtGt_some :
    ∀ {l p q : Str}, splitAtGt l = some (p, q) → l = p ++ '>' :: q ∧ '>' ∉ p := by
  intro l
  induction l with
  | nil => intro p q h; cases h
  | cons c rest ih =>
    intro p q h
    unfold splitAtGt at h
    by_cases hc : c = '>'
    · rw [if_pos hc] at h
      injection h with h
      injection h with h1 h2
      subst hc
      rw [← h1, ← h2]
      simp
    · rw [if_neg hc] at h
      cases hrec : splitAtGt rest with
      | none => rw [hrec] at h; cases h
      | some pq =>
        obtain ⟨p1, p2⟩ := pq
        rw [hrec] at h
        injection h with h
        have h' : (c :: p1, p2) = (p, q) := h
        injection h' with h1 h2
        obtain ⟨hdec, hmem⟩ := ih (p := p1) (q := p2) hrec
        rw [← h1, ← h2]
        constructor
        · simp [hdec]
        · intro hm
          rcases List.mem_cons.mp hm with h1 | h1
          · exact hc h1.symm
          · exact hmem h1

/-- The angle bracket scan fails exactly when there is no closing bracket. -/
theorem splitAtGt_none_iff : ∀ {l : Str}, splitAtGt l = none ↔ '>' ∉ l := by
  intro l
  induction l with
  | nil => simp [splitAtGt]
  | cons c rest ih =>
    unfold splitAtGt
    by_cases hc : c = '>'
    · rw [if_pos hc]
      subst hc
      simp
    · rw [if_neg hc]
      cases hrec : splitAtGt rest with
      | none =>
        have hnot : '>' ∉ rest := ih.mp hrec
        simp [List.mem_cons, hnot, Ne.symm hc]
      | some pq =>
        have hmem : '>' ∈ rest := by
          by_contra hm
          rw [← ih] at hm
          rw [hm] at hrec
          cases hrec
        simp [List.mem_cons, hmem]

/-- The remainder after a successful angle bracket scan is shorter. -/
theorem splitAtGt_some_length {l p q : Str} (h : splitAtGt l = some (p, q)) :
    q.length < l.length := by
  obtain ⟨hdec, _⟩ := splitAtGt_some h
  rw [hdec]
  simp
  omega

/-- Fuel irrelevance for the tag removal worker. -/
theorem stripTagsF_congr :
    ∀ (f g : Nat) (l : Str), l.length ≤ f → l.length ≤ g → stripTagsF f l = stripTagsF g l := by
  intro f
  induction f with
  | zero =>
    intro g l h1 _
    have : l = [] := List.length_eq_zero.mp (Nat.le_zero.mp h1)
    subst this
    cases g <;> rfl
  | succ f ih =>
    intro g l h1 h2
    match g, l with
    | 0, l =>
      have : l = [] := List.length_eq_zero.mp (Nat.le_zero.mp h2)
      subst this
      rfl
    | g + 1, [] => rfl
    | g + 1, c :: rest =>
      simp only [stripTagsF]
      have hr1 : rest.length ≤ f := by simp at h1; omega
      have hr2 : rest.length ≤ g := by simp at h2; omega
      by_cases hc : c = '<'
      · rw [if_pos hc, if_pos hc]
        cases hgt : splitAtGt rest with
        | none => rw [ih g rest hr1 hr2]
        | some pq =>
          obtain ⟨p1, p2⟩ := pq
          have hq : p2.length < rest.length := splitAtGt_some_length hgt
          show (if p1 = [] then '<' :: stripTagsF f rest else stripTagsF f p2) =
            (if p1 = [] then '<' :: stripTagsF g rest else stripTagsF g p2)
          by_cases hp : p1 = []
          · rw [if_pos hp, if_pos hp, ih g rest hr1 hr2]
          · rw [if_neg hp, if_neg hp, ih g p2 (by omega) (by omega)]
      · rw [if_neg hc, if_neg hc, ih g rest hr1 hr2]

/-- Unfolding stripTags at a cons cell. -/
theorem stripTags_cons (c : Char) (rest : Str) :
    stripTags (c :: rest) =
      if c = '<' then
        match splitAtGt rest with
        | some (content, after) =>
          if content = [] then '<' :: stripTags rest else stripTags after
        | none => '<' :: stripTags rest
      else c :: stripTags rest := by
  show stripTagsF (rest.length + 1) (c :: rest) = _
  simp only [stripTagsF]
  by_cases hc : c = '<'
  · rw [if_pos hc, if_pos hc]
    cases hgt : splitAtGt rest with
    | none => rfl
    | some pq =>
      obtain ⟨p1, p2⟩ := pq
      have hq : p2.length < rest.length := splitAtGt_some_length hgt
      show (if p1 = [] then '<' :: stripTagsF rest.length rest else stripTagsF rest.length p2) =
        (if p1 = [] then '<' :: stripTags rest else stripTags p2)
      by_cases hp : p1 = []
      · rw [if_pos hp, if_pos hp]
        rfl
      · rw [if_neg hp, if_neg hp]
        exact stripTagsF_congr rest.length p2.length p2 (by omega) le_rfl
  · rw [if_neg hc, if_neg hc]
    rfl

/-- Length bound for dropWhile. -/
theorem length_dropWhile_le (p : Char → Bool) (l : Str) :
    (l.dropWhile p).length ≤ l.length := by
  induction l with
  | nil => simp
  | cons c rest ih =>
    rw [List.dropWhile_cons]
    by_cases h : p c
    · rw [if_pos h]
      calc (rest.dropWhile p).length ≤ rest.length := ih
        _ ≤ (c :: rest).length := by simp
    · rw [if_neg h]

/-- Fuel irrelevance for the whitespace split worker. -/
theorem pySplitF_congr :
    ∀ (f g : Nat) (l : Str), l.length ≤ f → l.length ≤ g → pySplitF f l = pySplitF g l := by
  intro f
  induction f with
  | zero =>
    intro g l h1 _
    have : l = [] := List.length_eq_zero.mp (Nat.le_zero.mp h1)
    subst this
    cases g <;> rfl
  | succ f ih =>
    intro g l h1 h2
    match g, l with
    | 0, l =>
      have : l = [] := List.length_eq_zero.mp (Nat.le_zero.mp h2)
      subst this
      rfl
    | g + 1, [] => rfl
    | g + 1, c :: rest =>
      simp only [pySplitF]
      have hr1 : rest.length ≤ f := by simp at h1; omega
      have hr2 : rest.length ≤ g := by simp at h2; omega
      have hd := length_dropWhile_le (fun d => !isPyWs d) rest
      by_cases hc : isPyWs c
      · rw [if_pos hc, if_pos hc, ih g rest hr1 hr2]
      · rw [if_neg hc, if_neg hc, ih g _ (by omega) (by omega)]

/-- Unfolding pySplit on a leading whitespace character. -/
theorem pySplit_ws {c : Char} (rest : Str) (hc : isPyWs c = true) :
    pySplit (c :: rest) = pySplit rest := by
  show pySplitF (rest.length + 1) (c :: rest) = _
  simp only [pySplitF]
  rw [if_pos hc]
  exact pySplitF_congr rest.length rest.length rest le_rfl le_rfl

/-- Unfolding pySplit on a leading word character. -/
theorem pySplit_word {c : Char} (rest : Str) (hc : isPyWs c = false) :
    pySplit (c :: rest) =
      (c :: rest.takeWhile (fun d => !isPyWs d)) ::
        pySplit (rest.dropWhile (fun d => !isPyWs d)) := by
  show pySplitF (rest.length + 1) (c :: rest) = _
  simp only [pySplitF]
  rw [if_neg (by simp [hc])]
  have hd := length_dropWhile_le (fun d => !isPyWs d) rest
  rw [pySplitF_congr rest.length _ _ (by omega) le_rfl]
  rfl

/-- The empty string is tag free. -/
theorem noTag_nil : NoTag [] := by
  intro a m b h _
  exact absurd h (by simp)

/-- Tag freedom passes to the tail. -/
theorem NoTag.of_cons {c : Char} {l : Str} (h : NoTag (c :: l)) : NoTag l := by
  intro a m b he hm
  exact h (c :: a) m b (by rw [he]; rfl) hm

/-- Tag freedom passes to any suffix. -/
theorem NoTag.of_append {x l : Str} (h : NoTag (x ++ l)) : NoTag l := by
  induction x with
  | nil => exact h
  | cons c t ih => exact ih (NoTag.of_cons h)

/-- Tag removal never introduces characters. -/
theorem mem_stripTagsAux :
    ∀ (n : Nat) (l : Str), l.length ≤ n → ∀ x, x ∈ stripTags l → x ∈ l := by
  intro n
  induction n with
  | zero =>
    intro l hl x hx
    have : l = [] := List.length_eq_zero.mp (Nat.le_zero.mp hl)
    subst this
    exact hx
  | succ n ih =>
    intro l hl x hx
    cases l with
    | nil => exact hx
    | cons c rest =>
      have hr : rest.length ≤ n := by simp at hl; omega
      rw [stripTags_cons] at hx
      by_cases hc : c = '<'
      · rw [if_pos hc] at hx
        cases hgt : splitAtGt rest with
        | none =>
          rw [hgt] at hx
          rcases List.mem_cons.mp hx with h | h
          · rw [h, hc]; exact List.mem_cons_self _ _
          · exact List.mem_cons_of_mem c (ih rest hr x h)
        | some pq =>
          obtain ⟨p1, p2⟩ := pq
          rw [hgt] at hx
          have hx' : x ∈ (if p1 = [] then '<' :: stripTags rest else stripTags p2) := hx
          by_cases hp : p1 = []
          · rw [if_pos hp] at hx'
            rcases List.mem_cons.mp hx' with h | h
            · rw [h, hc]; exact List.mem_cons_self _ _
            · exact List.mem_cons_of_mem c (ih rest hr x h)
          · rw [if_neg hp] at hx'
            have hq : p2.length < rest.length := splitAtGt_some_length hgt
            have hx2 : x ∈ p2 := ih p2 (by omega) x hx'
            obtain ⟨hdec, _⟩ := splitAtGt_some hgt
            apply List.mem_cons_of_mem c
            rw [hdec]
            exact List.mem_append_right p1 (List.mem_cons_of_mem '>' hx2)
      · rw [if_neg hc] at hx
        rcases List.mem_cons.mp hx with h | h
        · rw [h]; exact List.mem_cons_self _ _
        · exact List.mem_cons_of_mem c (ih rest hr x h)

/-- Tag removal never introduces characters (top level form). -/
theorem mem_stripTags {l : Str} {x : Char} (h : x ∈ stripTags l) : x ∈ l :=
  mem_stripTagsAux l.length l le_rfl x h

/-- The output of tag removal is tag free. -/
theorem noTag_stripTagsAux : ∀ (n : Nat) (l : Str), l.length ≤ n → NoTag (stripTags l) := by
  intro n
  induction n with
  | zero =>
    intro l hl
    have : l = [] := List.length_eq_zero.mp (Nat.le_zero.mp hl)
    subst this
    exact noTag_nil
  | succ n ih =>
    intro l hl
    cases l with
    | nil => exact noTag_nil
    | cons c rest =>
      have hr : rest.length ≤ n := by simp at hl; omega
      rw [stripTags_cons]
      by_cases hc : c = '<'
      · rw [if_pos hc]
        cases hgt : splitAtGt rest with
        | none =>
          have hnot : '>' ∉ rest := splitAtGt_none_iff.mp hgt
          intro a m b he hm
          cases a with
          | nil =>
            injection he with _ he
            exfalso
            apply hnot
            apply mem_stripTags (l := rest)
            rw [he]
            exact List.mem_append_right m (List.mem_cons_self '>' b)
          | cons a0 a' =>
            injection he with _ he
            exact ih rest hr a' m b he hm
        | some pq =>
          obtain ⟨p1, p2⟩ := pq
          have hq : p2.length < rest.length := splitAtGt_some_length hgt
          show NoTag (if p1 = [] then '<' :: stripTags rest else stripTags p2)
          by_cases hp : p1 = []
          · rw [if_pos hp]
            obtain ⟨hdec, _⟩ := splitAtGt_some hgt
            rw [hp, List.nil_append] at hdec
            have hst : stripTags rest = '>' :: stripTags p2 := by
              rw [hdec, stripTags_cons, if_neg (by decide)]
            rw [hst]
            intro a m b he hm
            cases a with
            | nil =>
              injection he with _ he
              cases m with
              | nil => rfl
              | cons m0 m' =>
                injection he with he1 _
                exact absurd (he1 ▸ List.mem_cons_self m0 m') hm
            | cons a0 a' =>
              injection he with _ he
              cases a' with
              | nil =>
                injection he with he1 _
                cases he1
              | cons a1 a'' =>
                injection he with _ he
                exact ih p2 (by omega) a'' m b he hm
          · rw [if_neg hp]
            exact ih p2 (by omega)
      · rw [if_neg hc]
        intro a m b he hm
        cases a with
        | nil =>
          injection he with he1 _
          exact absurd he1 hc
        | cons a0 a' =>
          injection he with _ he
          exact ih rest hr a' m b he hm

/-- The output of tag removal is tag free (top level form). -/
theorem noTag_stripTags (l : Str) : NoTag (stripTags l) :=
  noTag_stripTagsAux l.length l le_rfl

/-- Tag removal is the identity on tag free strings. -/
theorem stripTags_eq_selfAux :
    ∀ (n : Nat) (l : Str), l.length ≤ n → NoTag l → stripTags l = l := by
  intro n
  induction n with
  | zero =>
    intro l hl _
    have : l = [] := List.length_eq_zero.mp (Nat.le_zero.mp hl)
    subst this
    rfl
  | succ n ih =>
    intro l hl h
    cases l with
    | nil => rfl
    | cons c rest =>
      have hr : rest.length ≤ n := by simp at hl; omega
      rw [stripTags_cons]
      by_cases hc : c = '<'
      · rw [if_pos hc]
        cases hgt : splitAtGt rest with
        | none => rw [ih rest hr h.of_cons, hc]
        | some pq =>
          obtain ⟨p1, p2⟩ := pq
          obtain ⟨hdec, hmem⟩ := splitAtGt_some hgt
          have hp : p1 = [] := by
            apply h [] p1 p2 _ hmem
            rw [hdec, hc]
            rfl
          show (if p1 = [] then '<' :: stripTags rest else stripTags p2) = c :: rest
          rw [if_pos hp, ih rest hr h.of_cons, hc]
      · rw [if_neg hc, ih rest hr h.of_cons]

/-- takeWhile and dropWhile across a word followed by a stopping character. -/
theorem takeWhile_all_append {p : Char → Bool} {y : Char} (r : Str) :
    ∀ (w : Str), (∀ x ∈ w, p x = true) → p y = false →
      (w ++ y :: r).takeWhile p = w ∧ (w ++ y :: r).dropWhile p = y :: r := by
  intro w
  induction w with
  | nil =>
    intro _ hy
    rw [List.nil_append]
    constructor
    · rw [List.takeWhile_cons, if_neg (by simp [hy])]
    · rw [List.dropWhile_cons, if_neg (by simp [hy])]
  | cons c w' ih =>
    intro hw hy
    have hc : p c = true := hw c (List.mem_cons_self c w')
    have hrec := ih (fun x hx => hw x (List.mem_cons_of_mem c hx)) hy
    rw [List.cons_append]
    constructor
    · rw [List.takeWhile_cons, if_pos hc, hrec.1]
    · rw [List.dropWhile_cons, if_pos hc, hrec.2]

/-- Decomposition at the first closing bracket of a string containing one. -/
theorem exists_first_gt : ∀ {l : Str}, '>' ∈ l → ∃ m b, l = m ++ '>' :: b ∧ '>' ∉ m := by
  intro l
  induction l with
  | nil => intro h; cases h
  | cons c rest ih =>
    intro h
    by_cases hc : c = '>'
    · exact ⟨[], rest, by rw [hc]; rfl, by simp⟩
    · have hr : '>' ∈ rest := by
        rcases List.mem_cons.mp h with h1 | h1
        · exact absurd h1.symm hc
        · exact h1
      obtain ⟨m, b, hd, hm⟩ := ih hr
      refine ⟨c :: m, b, by rw [hd]; rfl, ?_⟩
      intro hmem
      rcases List.mem_cons.mp hmem with h1 | h1
      · exact hc h1.symm
      · exact hm h1

/-- The head of a dropWhile result fails the predicate. -/
theorem dropWhile_head_false {p : Char → Bool} :
    ∀ {l : Str} {c : Char} {t : Str}, l.dropWhile p = c :: t → p c = false := by
  intro l
  induction l with
  | nil => intro c t h; cases h
  | cons a rest ih =>
    intro c t h
    rw [List.dropWhile_cons] at h
    by_cases ha : p a
    · rw [if_pos ha] at h
      exact ih h
    · rw [if_neg ha] at h
      injection h with h1 _
      rw [← h1]
      exact Bool.eq_false_iff.mpr ha

/-- Every word of pySplit is non-empty and free of whitespace characters. -/
theorem pySplit_words_aux :
    ∀ (n : Nat) (l : Str), l.length ≤ n →
      ∀ w ∈ pySplit l, w ≠ [] ∧ ∀ c ∈ w, isPyWs c = false := by
  intro n
  induction n with
  | zero =>
    intro l hl w hw
    have : l = [] := List.length_eq_zero.mp (Nat.le_zero.mp hl)
    subst this
    cases hw
  | succ n ih =>
    intro l hl w hw
    cases l with
    | nil => cases hw
    | cons c rest =>
      have hr : rest.length ≤ n := by simp at hl; omega
      by_cases hc : isPyWs c
      · rw [pySplit_ws rest hc] at hw
        exact ih rest hr w hw
      · rw [pySplit_word rest (Bool.eq_false_iff.mpr hc)] at hw
        rcases List.mem_cons.mp hw with h1 | h1
        · subst h1
          refine ⟨by simp, ?_⟩
          intro x hx
          rcases List.mem_cons.mp hx with h2 | h2
          · rw [h2]; exact Bool.eq_false_iff.mpr hc
          · have := List.mem_takeWhile_imp h2
            simpa using this
        · have hd := length_dropWhile_le (fun d => !isPyWs d) rest
          exact ih _ (by omega) w h1

/-- Every word of pySplit is non-empty and free of whitespace (top level form). -/
theorem pySplit_words {l : Str} {w : Str} (hw : w ∈ pySplit l) :
    w ≠ [] ∧ ∀ c ∈ w, isPyWs c = false :=
  pySplit_words_aux l.length l le_rfl w hw

/-- Characters of pySplit words come from the input. -/
theorem pySplit_mem_aux :
    ∀ (n : Nat) (l : Str), l.length ≤ n → ∀ w ∈ pySplit l, ∀ c ∈ w, c ∈ l := by
  intro n
  induction n with
  | zero =>
    intro l hl w hw
    have : l = [] := List.length_eq_zero.mp (Nat.le_zero.mp hl)
    subst this
    cases hw
  | succ n ih =>
    intro l hl w hw x hx
    cases l with
    | nil => cases hw
    | cons c rest =>
      have hr : rest.length ≤ n := by simp at hl; omega
      by_cases hc : isPyWs c
      · rw [pySplit_ws rest hc] at hw
        exact List.mem_cons_of_mem c (ih rest hr w hw x hx)
      · rw [pySplit_word rest (Bool.eq_false_iff.mpr hc)] at hw
        rcases List.mem_cons.mp hw with h1 | h1
        · subst h1
          rcases List.mem_cons.mp hx with h2 | h2
          · rw [h2]; exact List.mem_cons_self c rest
          · apply List.mem_cons_of_mem c
            rw [← List.takeWhile_append_dropWhile (p := fun d => !isPyWs d) (l := rest)]
            exact List.mem_append_left _ h2
        · have hd := length_dropWhile_le (fun d => !isPyWs d) rest
          have := ih _ (by omega) w h1 x hx
          apply List.mem_cons_of_mem c
          rw [← List.takeWhile_append_dropWhile (p := fun d => !isPyWs d) (l := rest)]
          exact List.mem_append_right _ this

/-- Unfolding of spaceJoin at a cons cell. -/
theorem spaceJoin_cons (w : Str) (ws : List Str) :
    spaceJoin (w :: ws) = w ++ (if ws = [] then [] else ' ' :: spaceJoin ws) := by
  cases ws with
  | nil => simp [spaceJoin, joinSep]
  | cons w' ws' => rfl

/-- Characters of a space join come from the words or are spaces. -/
theorem mem_spaceJoin {x : Char} :
    ∀ {ws : List Str}, x ∈ spaceJoin ws → (∃ w ∈ ws, x ∈ w) ∨ x = ' ' := by
  intro ws
  induction ws with
  | nil => intro h; cases h
  | cons w ws' ih =>
    rw [spaceJoin_cons]
    intro h
    rcases List.mem_append.mp h with h1 | h1
    · exact Or.inl ⟨w, List.mem_cons_self w ws', h1⟩
    · by_cases hws : ws' = []
      · rw [if_pos hws] at h1
        cases h1
      · rw [if_neg hws] at h1
        rcases List.mem_cons.mp h1 with h2 | h2
        · exact Or.inr h2
        · rcases ih h2 with ⟨w', hw', hx⟩ | h3
          · exact Or.inl ⟨w', List.mem_cons_of_mem w hw', hx⟩
          · exact Or.inr h3

/-- Characters of the whitespace collapse come from the input or are spaces. -/
theorem mem_collapse {x : Char} {l : Str} (h : x ∈ spaceJoin (pySplit l)) :
    x ∈ l ∨ x = ' ' := by
  rcases mem_spaceJoin h with ⟨w, hw, hx⟩ | h1
  · exact Or.inl (pySplit_mem_aux l.length l le_rfl w hw x hx)
  · exact Or.inr h1

/-- Core step for tag freedom of the whitespace collapse: gluing a leading word
onto the collapsed remainder preserves tag freedom.  The word characters are not
whitespace, the remainder starts with whitespace when non-empty, the whole
original string is tag free, and the collapsed remainder is tag free. -/
theorem noTag_glue (c : Char) (tw dw : Str)
    (hc : isPyWs c = false)
    (htw : ∀ x ∈ tw, isPyWs x = false)
    (hdw : ∀ d t, dw = d :: t → isPyWs d = true)
    (hfull : NoTag (c :: (tw ++ dw)))
    (hC : NoTag (spaceJoin (pySplit dw))) :
    NoTag ((c :: tw) ++
      (if pySplit dw = [] then [] else ' ' :: spaceJoin (pySplit dw))) := by
  intro a m b he hm
  rcases List.append_eq_append_iff.mp he with ⟨k, _, hsplit⟩ | ⟨k, hW, hB⟩
  · by_cases hP : pySplit dw = []
    · rw [if_pos hP] at hsplit
      exact absurd hsplit.symm (by simp)
    · rw [if_neg hP] at hsplit
      cases k with
      | nil =>
        injection hsplit with h1 _
        cases h1
      | cons k0 k' =>
        injection hsplit with _ h2
        exact hC k' m b h2 hm
  · cases k with
    | nil =>
      rw [List.append_nil] at hW
      by_cases hP : pySplit dw = []
      · rw [if_pos hP] at hB
        exact absurd hB (by simp)
      · rw [if_neg hP] at hB
        injection hB with h1 _
        cases h1
    | cons k0 k' =>
      injection hB with hB1 hB2
      have hk'ws : ∀ x ∈ k', isPyWs x = false := by
        intro x hx
        have hxW : x ∈ c :: tw := by
          rw [hW]
          exact List.mem_append_right a (List.mem_cons_of_mem k0 hx)
        rcases List.mem_cons.mp hxW with h1 | h1
        · rw [h1]; exact hc
        · exact htw x h1
      rcases List.append_eq_append_iff.mp hB2 with ⟨u, hk', hgb⟩ | ⟨u, hm', hrest'⟩
      · cases u with
        | nil =>
          rw [List.nil_append] at hgb
          by_cases hP : pySplit dw = []
          · rw [if_pos hP] at hgb
            exact absurd hgb (by simp)
          · rw [if_neg hP] at hgb
            injection hgb with h1 _
            cases h1
        | cons u0 u' =>
          injection hgb with hg1 hg2
          apply hfull a m (u' ++ dw) ?_ hm
          have hWdec : c :: tw = a ++ '<' :: (m ++ '>' :: u') := by
            rw [hW, ← hB1, hk', ← hg1]
          calc c :: (tw ++ dw) = (c :: tw) ++ dw := rfl
            _ = (a ++ '<' :: (m ++ '>' :: u')) ++ dw := by rw [hWdec]
            _ = a ++ '<' :: (m ++ '>' :: (u' ++ dw)) := by simp [List.append_assoc]
      · exfalso
        by_cases hP : pySplit dw = []
        · rw [if_pos hP] at hrest'
          exact absurd hrest'.symm (by simp)
        · rw [if_neg hP] at hrest'
          have hdwne : dw ≠ [] := by
            intro hd
            apply hP
            rw [hd]
            rfl
          obtain ⟨d0, dt, hdw0⟩ : ∃ d0 dt, dw = d0 :: dt := by
            cases dw with
            | nil => exact absurd rfl hdwne
            | cons d0 dt => exact ⟨d0, dt, rfl⟩
          have hd0 : isPyWs d0 = true := hdw d0 dt hdw0
          have hgtC : '>' ∈ spaceJoin (pySplit dw) := by
            cases u with
            | nil =>
              injection hrest' with h1 _
              cases h1
            | cons u0 u' =>
              injection hrest' with _ h2
              rw [h2]
              exact List.mem_append_right u' (List.mem_cons_self '>' b)
          have hgtdw : '>' ∈ dw := by
            rcases mem_collapse hgtC with h1 | h1
            · exact h1
            · cases h1
          obtain ⟨mz, bz, hdz, hmz⟩ := exists_first_gt hgtdw
          have hknil : k' ++ mz = [] := by
            apply hfull a (k' ++ mz) bz ?_ ?_
            · have hW' : c :: tw = a ++ '<' :: k' := by rw [hW, ← hB1]
              calc c :: (tw ++ dw) = (c :: tw) ++ dw := rfl
                _ = (a ++ '<' :: k') ++ (mz ++ '>' :: bz) := by rw [hW', hdz]
                _ = a ++ '<' :: ((k' ++ mz) ++ '>' :: bz) := by simp [List.append_assoc]
            · intro hmem
              rcases List.mem_append.mp hmem with h1 | h1
              · exact hm (hm' ▸ List.mem_append_left u h1)
              · exact hmz h1
          have hmz0 : mz = [] := (List.append_eq_nil.mp hknil).2
          rw [hmz0, List.nil_append] at hdz
          rw [hdw0] at hdz
          injection hdz with h1 _
          rw [h1] at hd0
          cases hd0

/-- The whitespace collapse of a tag free string is tag free. -/
theorem noTag_collapse_aux :
    ∀ (n : Nat) (l : Str), l.length ≤ n → NoTag l → NoTag (spaceJoin (pySplit l)) := by
  intro n
  induction n with
  | zero =>
    intro l hl _
    have : l = [] := List.length_eq_zero.mp (Nat.le_zero.mp hl)
    subst this
    exact noTag_nil
  | succ n ih =>
    intro l hl h
    cases l with
    | nil => exact noTag_nil
    | cons c rest =>
      have hr : rest.length ≤ n := by simp at hl; omega
      by_cases hc : isPyWs c
      · rw [pySplit_ws rest hc]
        exact ih rest hr h.of_cons
      · rw [pySplit_word rest (Bool.eq_false_iff.mpr hc), spaceJoin_cons]
        have hrest := List.takeWhile_append_dropWhile (p := fun d => !isPyWs d) (l := rest)
        apply noTag_glue c _ _ (Bool.eq_false_iff.mpr hc)
        · intro x hx
          have := List.mem_takeWhile_imp hx
          simpa using this
        · intro d t hd
          have := dropWhile_head_false hd
          simpa using this
        · rw [hrest]
          exact h
        · have hlen := length_dropWhile_le (fun d => !isPyWs d) rest
          apply ih _ (by omega)
          have hrd : NoTag rest := h.of_cons
          rw [← hrest] at hrd
          exact hrd.of_append

/-- The whitespace collapse of a tag free string is tag free (top level form). -/
theorem noTag_collapse {l : Str} (h : NoTag l) : NoTag (spaceJoin (pySplit l)) :=
  noTag_collapse_aux l.length l le_rfl h

/-- takeWhile and dropWhile on a list all of whose elements pass the predicate. -/
theorem takeWhile_all {p : Char → Bool} :
    ∀ {t : Str}, (∀ x ∈ t, p x = true) → t.takeWhile p = t ∧ t.dropWhile p = [] := by
  intro t
  induction t with
  | nil => intro _; exact ⟨rfl, rfl⟩
  | cons c t' ih =>
    intro h
    have hc : p c = true := h c (List.mem_cons_self c t')
    have hrec := ih (fun x hx => h x (List.mem_cons_of_mem c hx))
    constructor
    · rw [List.takeWhile_cons, if_pos hc, hrec.1]
    · rw [List.dropWhile_cons, if_pos hc, hrec.2]

/-- Splitting the space join of non-empty whitespace free words recovers the
words. -/
theorem pySplit_spaceJoin :
    ∀ (ws : List Str), (∀ w ∈ ws, w ≠ [] ∧ ∀ c ∈ w, isPyWs c = false) →
      pySplit (spaceJoin ws) = ws := by
  intro ws
  induction ws with
  | nil => intro _; rfl
  | cons w ws' ih =>
    intro hw
    obtain ⟨hne, hchars⟩ := hw w (List.mem_cons_self w ws')
    obtain ⟨c, t, rfl⟩ : ∃ c t, w = c :: t := by
      cases w with
      | nil => exact absurd rfl hne
      | cons c t => exact ⟨c, t, rfl⟩
    have hcw : isPyWs c = false := hchars c (List.mem_cons_self c t)
    have htw : ∀ x ∈ t, isPyWs x = false := fun x hx => hchars x (List.mem_cons_of_mem c hx)
    cases ws' with
    | nil =>
      show pySplit (c :: t) = [c :: t]
      rw [pySplit_word t hcw]
      have hta := takeWhile_all (p := fun d => !isPyWs d) (t := t)
        (fun x hx => by simp [htw x hx])
      rw [hta.1, hta.2]
      rfl
    | cons w2 ws'' =>
      show pySplit (c :: (t ++ ' ' :: spaceJoin (w2 :: ws''))) = (c :: t) :: w2 :: ws''
      rw [pySplit_word _ hcw]
      have hta := takeWhile_all_append (p := fun d => !isPyWs d) (y := ' ')
        (spaceJoin (w2 :: ws'')) t (fun x hx => by simp [htw x hx]) (by decide)
      rw [hta.1, hta.2, pySplit_ws _ (by decide),
        ih (fun v hv => hw v (List.mem_cons_of_mem _ hv))]

/-- The space join of non-empty words with a non-empty word list is non-empty. -/
theorem spaceJoin_ne_nil :
    ∀ {ws : List Str}, ws ≠ [] → (∀ w ∈ ws, w ≠ []) → spaceJoin ws ≠ [] := by
  intro ws hne hw
  cases ws with
  | nil => exact absurd rfl hne
  | cons w ws' =>
    rw [spaceJoin_cons]
    cases hv : w with
    | nil => exact absurd hv (hw w (List.mem_cons_self w ws'))
    | cons c t => simp

/-- The last element of an append with a non-empty right part sits in the right
part. -/
theorem last_of_append {x y t : Str} {c : Char} (hy : y ≠ []) (h : x ++ y = t ++ [c]) :
    ∃ t2, y = t2 ++ [c] := by
  have hdec := List.dropLast_append_getLast hy
  have h1 : (x ++ y.dropLast) ++ [y.getLast hy] = t ++ [c] := by
    rw [List.append_assoc, hdec, h]
  have h2 : some (y.getLast hy) = some c := by
    rw [← List.getLast?_concat (x ++ y.dropLast), h1, List.getLast?_concat]
  injection h2 with h2
  exact ⟨y.dropLast, by rw [← h2, hdec]⟩

/-- The space join of good words starts with a word character. -/
theorem spaceJoin_head {ws : List Str}
    (hw : ∀ w ∈ ws, w ≠ [] ∧ ∀ c ∈ w, isPyWs c = false) :
    ∀ c t, spaceJoin ws = c :: t → isPyWs c = false := by
  intro c t h
  cases ws with
  | nil => cases h
  | cons w ws' =>
    rw [spaceJoin_cons] at h
    obtain ⟨hne, hch⟩ := hw w (List.mem_cons_self w ws')
    cases hv : w with
    | nil => exact absurd hv hne
    | cons w0 wt =>
      rw [hv] at h
      injection h with h1 _
      rw [← h1]
      exact hch w0 (hv ▸ List.mem_cons_self w0 wt)

/-- The space join of good words ends with a word character. -/
theorem spaceJoin_last :
    ∀ {ws : List Str}, (∀ w ∈ ws, w ≠ [] ∧ ∀ c ∈ w, isPyWs c = false) →
      ∀ t c, spaceJoin ws = t ++ [c] → isPyWs c = false := by
  intro ws
  induction ws with
  | nil =>
    intro _ t c h
    exact absurd (List.append_eq_nil.mp h.symm).2 (by simp)
  | cons w ws' ih =>
    intro hw t c h
    rw [spaceJoin_cons] at h
    obtain ⟨hne, hch⟩ := hw w (List.mem_cons_self w ws')
    by_cases hws : ws' = []
    · rw [if_pos hws, List.append_nil] at h
      apply hch c
      rw [h]
      exact List.mem_append_right t (List.mem_cons_self c [])
    · rw [if_neg hws] at h
      obtain ⟨t2, ht2⟩ := last_of_append (y := ' ' :: spaceJoin ws') (by simp) h
      cases t2 with
      | nil =>
        injection ht2 with h1 h2
        exact absurd h2
          (spaceJoin_ne_nil hws (fun v hv => (hw v (List.mem_cons_of_mem w hv)).1))
      | cons t0 t2' =>
        injection ht2 with _ h2
        exact ih (fun v hv => hw v (List.mem_cons_of_mem w hv)) t2' c h2

/-- Stripping is the identity on a string whose ends are not whitespace. -/
theorem pyStrip_eq_self {l : Str}
    (h1 : ∀ c t, l = c :: t → isPyWs c = false)
    (h2 : ∀ t c, l = t ++ [c] → isPyWs c = false) : pyStrip l = l := by
  unfold pyStrip
  have hd : l.dropWhile isPyWs = l := by
    cases hv : l with
    | nil => rfl
    | cons c t => rw [List.dropWhile_cons, if_neg (by simp [h1 c t hv])]
  rw [hd]
  have hr : l.reverse.dropWhile isPyWs = l.reverse := by
    cases hrev : l.reverse with
    | nil => rfl
    | cons c t =>
      have hlast : l = t.reverse ++ [c] := by
        rw [← List.reverse_reverse l, hrev]
        simp
      rw [List.dropWhile_cons, if_neg (by simp [h2 t.reverse c hlast])]
  rw [hr, List.reverse_reverse]

/-- quoteFix is the identity away from the three curly characters. -/
theorem quoteFix_of_ne {c : Char} (h1 : c ≠ '’') (h2 : c ≠ '“') (h3 : c ≠ '”') :
    quoteFix c = c := by
  unfold quoteFix
  rw [if_neg h1, if_neg h2, if_neg h3]

/-- quoteFix preserves whitespace status. -/
theorem quoteFix_ws (c : Char) : isPyWs (quoteFix c) = isPyWs c := by
  by_cases h1 : c = '’'
  · rw [h1]; decide
  by_cases h2 : c = '“'
  · rw [h2]; decide
  by_cases h3 : c = '”'
  · rw [h3]; decide
  rw [quoteFix_of_ne h1 h2 h3]

/-- quoteFix preserves being an opening angle bracket. -/
theorem quoteFix_eq_lt_iff (c : Char) : quoteFix c = '<' ↔ c = '<' := by
  by_cases h1 : c = '’'
  · rw [h1]; decide
  by_cases h2 : c = '“'
  · rw [h2]; decide
  by_cases h3 : c = '”'
  · rw [h3]; decide
  rw [quoteFix_of_ne h1 h2 h3]

/-- quoteFix preserves being a closing angle bracket. -/
theorem quoteFix_eq_gt_iff (c : Char) : quoteFix c = '>' ↔ c = '>' := by
  by_cases h1 : c = '’'
  · rw [h1]; decide
  by_cases h2 : c = '“'
  · rw [h2]; decide
  by_cases h3 : c = '”'
  · rw [h3]; decide
  rw [quoteFix_of_ne h1 h2 h3]

/-- quoteFix is idempotent on characters. -/
theorem quoteFix_idem (c : Char) : quoteFix (quoteFix c) = quoteFix c := by
  by_cases h1 : c = '’'
  · rw [h1]; decide
  by_cases h2 : c = '“'
  · rw [h2]; decide
  by_cases h3 : c = '”'
  · rw [h3]; decide
  rw [quoteFix_of_ne h1 h2 h3, quoteFix_of_ne h1 h2 h3]

/-- The angle bracket scan commutes with the quote normalization map. -/
theorem splitAtGt_map :
    ∀ l : Str, splitAtGt (l.map quoteFix) =
      (splitAtGt l).map (fun p => (p.1.map quoteFix, p.2.map quoteFix)) := by
  intro l
  induction l with
  | nil => rfl
  | cons c rest ih =>
    rw [List.map_cons]
    by_cases hc : c = '>'
    · show (if quoteFix c = '>' then some ([], rest.map quoteFix)
          else (splitAtGt (rest.map quoteFix)).map fun p => (quoteFix c :: p.1, p.2)) = _
      rw [if_pos ((quoteFix_eq_gt_iff c).mpr hc)]
      show _ = (if c = '>' then some ([], rest)
          else (splitAtGt rest).map fun p => (c :: p.1, p.2)).map
            fun p => (p.1.map quoteFix, p.2.map quoteFix)
      rw [if_pos hc]
      rfl
    · show (if quoteFix c = '>' then some ([], rest.map quoteFix)
          else (splitAtGt (rest.map quoteFix)).map fun p => (quoteFix c :: p.1, p.2)) = _
      rw [if_neg (fun h => hc ((quoteFix_eq_gt_iff c).mp h))]
      show _ = (if c = '>' then some ([], rest)
          else (splitAtGt rest).map fun p => (c :: p.1, p.2)).map
            fun p => (p.1.map quoteFix, p.2.map quoteFix)
      rw [if_neg hc, ih]
      cases splitAtGt rest with
      | none => rfl
      | some pq => rfl

/-- Tag removal commutes with the quote normalization map. -/
theorem stripTags_map_aux :
    ∀ (n : Nat) (l : Str), l.length ≤ n →
      stripTags (l.map quoteFix) = (stripTags l).map quoteFix := by
  intro n
  induction n with
  | zero =>
    intro l hl
    have : l = [] := List.length_eq_zero.mp (Nat.le_zero.mp hl)
    subst this
    rfl
  | succ n ih =>
    intro l hl
    cases l with
    | nil => rfl
    | cons c rest =>
      have hr : rest.length ≤ n := by simp at hl; omega
      rw [List.map_cons, stripTags_cons, stripTags_cons]
      by_cases hc : c = '<'
      · rw [if_pos ((quoteFix_eq_lt_iff c).mpr hc), if_pos hc, splitAtGt_map rest]
        cases hgt : splitAtGt rest with
        | none =>
          show '<' :: stripTags (rest.map quoteFix) = ('<' :: stripTags rest).map quoteFix
          rw [List.map_cons, ih rest hr]
          rfl
        | some pq =>
          obtain ⟨p1, p2⟩ := pq
          have hq : p2.length < rest.length := splitAtGt_some_length hgt
          show (if p1.map quoteFix = [] then '<' :: stripTags (rest.map quoteFix)
              else stripTags (p2.map quoteFix)) =
            (if p1 = [] then '<' :: stripTags rest else stripTags p2).map quoteFix
          by_cases hp : p1 = []
          · rw [if_pos (List.map_eq_nil_iff.mpr hp), if_pos hp, List.map_cons, ih rest hr]
            rfl
          · rw [if_neg (fun h => hp (List.map_eq_nil_iff.mp h)), if_neg hp, ih p2 (by omega)]
      · rw [if_neg (fun h => hc ((quoteFix_eq_lt_iff c).mp h)), if_neg hc, List.map_cons,
          ih rest hr]

/-- The whitespace split commutes with the quote normalization map. -/
theorem pySplit_map_aux :
    ∀ (n : Nat) (l : Str), l.length ≤ n →
      pySplit (l.map quoteFix) = (pySplit l).map (List.map quoteFix) := by
  intro n
  induction n with
  | zero =>
    intro l hl
    have : l = [] := List.length_eq_zero.mp (Nat.le_zero.mp hl)
    subst this
    rfl
  | succ n ih =>
    intro l hl
    cases l with
    | nil => rfl
    | cons c rest =>
      have hr : rest.length ≤ n := by simp at hl; omega
      have hpf : ((fun d => !isPyWs d) ∘ quoteFix) = fun d => !isPyWs d := by
        funext d
        simp [Function.comp, quoteFix_ws]
      rw [List.map_cons]
      by_cases hc : isPyWs c
      · rw [pySplit_ws _ (by rw [quoteFix_ws]; exact hc), pySplit_ws rest hc]
        exact ih rest hr
      · have hcf : isPyWs (quoteFix c) = false := by
          rw [quoteFix_ws]
          exact Bool.eq_false_iff.mpr hc
        rw [pySplit_word _ hcf, pySplit_word rest (Bool.eq_false_iff.mpr hc),
          List.takeWhile_map, List.dropWhile_map, hpf, List.map_cons]
        have hd := length_dropWhile_le (fun d => !isPyWs d) rest
        rw [ih _ (by omega)]
        rfl

/-- The space join commutes with the quote normalization map. -/
theorem spaceJoin_map :
    ∀ ws : List Str, spaceJoin (ws.map (List.map quoteFix)) = (spaceJoin ws).map quoteFix := by
  intro ws
  induction ws with
  | nil => rfl
  | cons w ws' ih =>
    cases ws' with
    | nil => rfl
    | cons w2 ws'' =>
      show w.map quoteFix ++ ' ' :: spaceJoin ((w2 :: ws'').map (List.map quoteFix)) =
        (w ++ ' ' :: spaceJoin (w2 :: ws'')).map quoteFix
      rw [List.map_append, List.map_cons]
      have hih : spaceJoin (List.map quoteFix w2 :: ws''.map (List.map quoteFix)) =
          List.map quoteFix (spaceJoin (w2 :: ws'')) := ih
      rw [hih, List.map_cons, show quoteFix ' ' = ' ' from by decide]

/-- The quote normalization map is idempotent. -/
theorem map_quoteFix_idem (l : Str) : (l.map quoteFix).map quoteFix = l.map quoteFix := by
  rw [List.map_map]
  apply List.map_congr_left
  intro a _
  exact quoteFix_idem a

/-- Closed form of normalize_text, valid for all inputs including the empty one. -/
theorem normalize_text_eq (l : Str) :
    normalize_text l = pyStrip (List.map quoteFix (spaceJoin (pySplit (stripTags l)))) := by
  unfold normalize_text
  by_cases h : l = []
  · rw [if_pos h, h]
    rfl
  · rw [if_neg h]

/-- The strip at the end of the normalization pipeline is the identity on the
quote normalized collapse of good words. -/
theorem strip_noop_mapped {ws : List Str}
    (hw : ∀ w ∈ ws, w ≠ [] ∧ ∀ c ∈ w, isPyWs c = false) :
    pyStrip (List.map quoteFix (spaceJoin ws)) = List.map quoteFix (spaceJoin ws) := by
  apply pyStrip_eq_self
  · intro c t h
    cases hsj : spaceJoin ws with
    | nil => rw [hsj] at h; cases h
    | cons c0 t0 =>
      rw [hsj, List.map_cons] at h
      injection h with h1 _
      rw [← h1, quoteFix_ws]
      exact spaceJoin_head hw c0 t0 hsj
  · intro t c h
    by_cases hsj : spaceJoin ws = []
    · rw [hsj] at h
      exact absurd (List.append_eq_nil.mp h.symm).2 (by simp)
    · have hdec := List.dropLast_append_getLast hsj
      have hg1 : (List.map quoteFix (spaceJoin ws)).getLast? = some c := by
        rw [h, List.getLast?_concat]
      have hg2 : (List.map quoteFix (spaceJoin ws)).getLast? =
          some (quoteFix ((spaceJoin ws).getLast hsj)) := by
        conv_lhs => rw [← hdec]
        rw [List.map_append, List.map_cons, List.map_nil, List.getLast?_concat]
      rw [hg1] at hg2
      injection hg2 with hg2
      rw [hg2, quoteFix_ws]
      exact spaceJoin_last hw _ _ hdec.symm

/-- C7: the text normalizer is idempotent: normalizing twice equals normalizing
once, for every input string. -/
theorem c7_normalize_idempotent :
    ∀ x : Str, normalize_text (normalize_text x) = normalize_text x := by
  intro x
  have hgood : ∀ w ∈ pySplit (stripTags x), w ≠ [] ∧ ∀ c ∈ w, isPyWs c = false :=
    fun w h => pySplit_words h
  have hA : pyStrip (List.map quoteFix (spaceJoin (pySplit (stripTags x)))) =
      List.map quoteFix (spaceJoin (pySplit (stripTags x))) := strip_noop_mapped hgood
  rw [normalize_text_eq x, hA, normalize_text_eq]
  have hnt : NoTag (spaceJoin (pySplit (stripTags x))) :=
    noTag_collapse (noTag_stripTags x)
  have h1 : stripTags (List.map quoteFix (spaceJoin (pySplit (stripTags x)))) =
      List.map quoteFix (spaceJoin (pySplit (stripTags x))) := by
    rw [stripTags_map_aux _ _ le_rfl, stripTags_eq_selfAux _ _ le_rfl hnt]
  rw [h1, pySplit_map_aux _ _ le_rfl, pySplit_spaceJoin _ hgood, spaceJoin_map,
    map_quoteFix_idem]
  exact hA
